import Mathlib

/-!
Verification of the lazy-sequence combinator library of rdiff-backup
(`rdiff_backup/lazy.py`, exercised by `testing/lazytest.py`) and of the
filesystem-capability prober (`rdiff_backup/fs_abilities.py`).

A single-pass sequence is embedded as the finite list of values it yields
followed by an optional error it raises after the last value; exhaustion is
the absence of such an error.  Combinators become pure functions on this
representation; the multiplexer becomes an explicit state machine driven by
an arbitrary schedule of pulls.
-/

namespace Lazy

/-- A single-pass sequence: the values produced in order, then either
exhaustion (`err = none`) or an error raised after the last value. -/
structure ErrSeq (α ε : Type) where
  vals : List α
  err : Option ε
deriving DecidableEq, Repr

/-! ## EqualityCheck -/

/-- Modelled from the spec: `EqualityCheck` (`Iter.equal`, which is missing
from `src/`) pulls both sequences in lockstep, returns false on the first
differing pair without pulling further, false when one exhausts before the
other, true when both exhaust together with all pairs equal. -/
def equal [DecidableEq α] : List α → List α → Bool
  | [], [] => true
  | _ :: _, [] => false
  | [], _ :: _ => false
  | a :: as, b :: bs => if a = b then equal as bs else false

/-! ## Concatenate -/

/-- Modelled from the spec: `Concatenate` (`Iter.cat`, missing from `src/`)
drains each sequence completely before the next; an error from one sequence
is delivered verbatim and terminates the chain, and later sequences are
never pulled (the result does not depend on them). -/
def cat {α ε : Type} : List (ErrSeq α ε) → ErrSeq α ε
  | [] => ⟨[], none⟩
  | s :: rest =>
    match s.err with
    | some e => ⟨s.vals, some e⟩
    | none =>
      let t := cat rest
      ⟨s.vals ++ t.vals, t.err⟩

/-! ## BooleanAnd -/

/-- Result of a boolean fold: the canonical true sentinel for an empty
sequence, a value returned by the fold, or an error propagated from the
source. -/
inductive AndResult (α ε : Type) where
  | sentinelTrue
  | value : α → AndResult α ε
  | error : ε → AndResult α ε
deriving DecidableEq, Repr

/-- Loop of `booleanAnd` once at least one value has been pulled: `last` is
the most recently pulled (truthy) value. -/
def andGo (truthy : α → Bool) : List α → Option ε → α → AndResult α ε
  | [], none, last => .value last
  | [], some e, _ => .error e
  | v :: rest, er, _ =>
    if truthy v then andGo truthy rest er v else .value v

/-- Modelled from the spec: `BooleanAnd` (`Iter.And`, missing from `src/`)
returns the canonical-true sentinel on an empty sequence, otherwise pulls
sequentially, returning the first falsy value without pulling further, and
after exhaustion returns the last value pulled if all were truthy. -/
def booleanAnd (truthy : α → Bool) (s : ErrSeq α ε) : AndResult α ε :=
  match s.vals with
  | [] =>
    match s.err with
    | none => .sentinelTrue
    | some e => .error e
  | v :: rest =>
    if truthy v then andGo truthy rest s.err v else .value v

/-! ## Folds -/

/-- Modelled from the spec: `FoldLeft` (`Iter.foldl`, missing from `src/`)
is the iterative accumulation `acc = combine(acc, v)`; it is a total
function needing no stack budget, mirroring bounded-memory iteration. -/
def foldl (f : β → α → β) : β → List α → β
  | acc, [] => acc
  | acc, v :: rest => foldl f (f acc v) rest

/-- Modelled from the spec: `FoldRight` (`Iter.foldr`, missing from `src/`)
holds one pending continuation frame per unconsumed element; the `Nat`
argument is the control-stack budget, and exceeding it is the documented
resource-exhaustion failure. -/
def foldrBounded (f : α → β → β) (seed : β) : Nat → List α → Except Unit β
  | _, [] => .ok seed
  | 0, _ :: _ => .error ()
  | d + 1, v :: rest =>
    match foldrBounded f seed d rest with
    | .ok acc => .ok (f v acc)
    | .error e => .error e

/-! ## Multiplexer -/

/-- Result of pulling a multiplexed output once: a value, exhaustion, an
error propagated from the source, or the defensive buffer-invariant
violation signal of spec section 7, which must never be reachable. -/
inductive PullResult (α ε : Type) where
  | val : α → PullResult α ε
  | done
  | err : ε → PullResult α ε
  | bug
deriving DecidableEq, Repr

/-- Minimum of a cursor list, 0 for the empty list. -/
def listMin (l : List Nat) : Nat := l.min?.getD 0

/-- Modelled from the spec: the shared MultiplexState of `Iter.multiplex`
(missing from `src/`, spec sections 3 and 4.10): the un-pulled tail of the
source with its pending error, the queue of buffered values, one cursor
and one terminal flag per output, and the source position.  `count`
counts `onEachValue` callback firings; `obs` and `errObs` are history
fields recording per output the values observed and the number of error
deliveries. -/
structure MpxState (α ε : Type) where
  remaining : List α
  srcErr : Option ε
  queue : List α
  cursors : List Nat
  pos : Nat
  term : List Bool
  count : Nat
  obs : List (List α)
  errObs : List Nat
deriving DecidableEq, Repr

/-- Modelled from the spec: the initial state of `Multiplex(seq, n)`. -/
def mpxInit (src : ErrSeq α ε) (n : Nat) : MpxState α ε :=
  ⟨src.vals, src.err, [], List.replicate n 0, 0, List.replicate n false, 0,
   List.replicate n [], List.replicate n 0⟩

/-- Modelled from the spec (section 4.10): one pull on output `i`.  A
buffered value is returned when the cursor lags the source position; at
the frontier a fresh value is pulled from the source (firing the
callback), or the recorded error or the exhaustion signal is delivered
and the output becomes terminal.  After an advance the queue is trimmed
to start at the minimum cursor, evicting each value the moment every
cursor has passed it. -/
def mpxPull (s : MpxState α ε) (i : Nat) : PullResult α ε × MpxState α ε :=
  if i < s.cursors.length then
    if s.term.getD i false then (.done, s)
    else
      let c := s.cursors.getD i 0
      let qstart := s.pos - s.queue.length
      if c < s.pos then
        match s.queue[c - qstart]? with
        | none => (.bug, s)
        | some v =>
          let cursors' := s.cursors.set i (c + 1)
          (.val v, { s with
            cursors := cursors'
            queue := s.queue.drop (listMin cursors' - qstart)
            obs := s.obs.set i (s.obs.getD i [] ++ [v]) })
      else if c = s.pos then
        match s.remaining with
        | v :: rest =>
          let cursors' := s.cursors.set i (c + 1)
          (.val v, { s with
            remaining := rest
            pos := s.pos + 1
            cursors := cursors'
            queue := (s.queue ++ [v]).drop (listMin cursors' - qstart)
            count := s.count + 1
            obs := s.obs.set i (s.obs.getD i [] ++ [v]) })
        | [] =>
          match s.srcErr with
          | some e =>
            (.err e, { s with
              term := s.term.set i true
              errObs := s.errObs.set i (s.errObs.getD i 0 + 1) })
          | none => (.done, { s with term := s.term.set i true })
      else (.bug, s)
  else (.bug, s)

/-- Run a schedule of pulls, keeping the final state; the schedule is the
order in which the caller interleaves the outputs. -/
def mpxRun (s : MpxState α ε) : List Nat → MpxState α ε
  | [] => s
  | i :: sched => mpxRun (mpxPull s i).2 sched

/-- The multiplexer state reached from `Multiplex(seq, n)` after an
arbitrary interleaving `sched` of pulls on the outputs. -/
def mpxFinal (src : ErrSeq α ε) (n : Nat) (sched : List Nat) : MpxState α ε :=
  mpxRun (mpxInit src n) sched

/-- The state invariant of the multiplexer, relative to the source values
`xs`, the source error `er` and the output count `n`: lengths are fixed,
the source tail matches the position, cursors never pass the position,
the queue holds exactly the values between the minimum cursor and the
position, the callback fired once per value pulled, each output has
observed exactly the prefix of the source below its cursor, outputs are
terminal only at the end of the source, and the error was delivered to
an output exactly once iff that output is terminal and the source has a
pending error. -/
structure MpxInv (xs : List α) (er : Option ε) (n : Nat) (s : MpxState α ε) : Prop where
  hcur : s.cursors.length = n
  hterm : s.term.length = n
  hobs : s.obs.length = n
  herrObs : s.errObs.length = n
  hpos : s.pos ≤ xs.length
  hrem : s.remaining = List.drop s.pos xs
  hsrc : s.srcErr = er
  hle : ∀ c ∈ s.cursors, c ≤ s.pos
  hq : s.queue = List.drop (listMin s.cursors) (List.take s.pos xs)
  hcount : s.count = s.pos
  hobsEq : ∀ i, i < n → s.obs.getD i [] = List.take (s.cursors.getD i 0) xs
  htermEq : ∀ i, i < n → s.term.getD i false = true → s.cursors.getD i 0 = xs.length
  herrObsEq : ∀ i, i < n →
    s.errObs.getD i 0 =
      if s.term.getD i false = true ∧ er.isSome = true then 1 else 0

end Lazy

/-!  ## fs_abilities.py  -/

namespace FsAbilities

/-- Capability record of `FSAbilities` in `fs_abilities.py`; every field
starts at the class default `none` (Python `None`, reported as N/A). -/
structure FSAbilities where
  chars_to_quote : Option String := none
  ownership : Option Bool := none
  acls : Option Bool := none
  eas : Option Bool := none
  hardlinks : Option Bool := none
  fsync_dirs : Option Bool := none
  dir_inc_perms : Option Bool := none
  resource_forks : Option Bool := none
  read_only : Option Nat := none
  has_root_rp : Bool := false
deriving DecidableEq, Repr

/-- The value assigned to `self.chars_to_quote` by
`FSAbilities.set_chars_to_quote`, as a function of the two probed booleans
`is_case_sensitive()` and `supports_unusual_chars()`. -/
def set_chars_to_quote (case_sensitive unusual : Bool) : String :=
  if case_sensitive then
    if unusual then "" else "^A-Za-z0-9_ -."
  else
    if unusual then "A-Z;" else "^a-z0-9_ -."

/-- `FSAbilities.init_readonly`: sets `root_rp`, sets `read_only` to 1 and
runs only the non-writing probes `set_eas`, `set_acls` and
`set_resource_fork_readonly`, whose outcomes are the booleans `ea`, `ac`
and `rf`.  All other fields are untouched. -/
def init_readonly (ea ac rf : Bool) (s : FSAbilities) : FSAbilities :=
  { s with has_root_rp := true
           read_only := some 1
           eas := some ea
           acls := some ac
           resource_forks := some rf }

/-- The text `add_boolean_list` in `FSAbilities.__str__` prints for a
capability field: On, Off, or N/A for the class default `None`. -/
def val_text : Option Bool → String
  | some true => "On"
  | some false => "Off"
  | none => "N/A"

end FsAbilities

namespace Lazy

/-! ## Lemmas on the simple combinators -/

lemma equal_eq_true_iff [DecidableEq α] :
    ∀ as bs : List α, equal as bs = true ↔ as = bs := by
  intro as
  induction as with
  | nil => intro bs; cases bs <;> simp [equal]
  | cons a as ih =>
    intro bs
    cases bs with
    | nil => simp [equal]
    | cons b bs =>
      by_cases hab : a = b
      · subst hab; simp [equal, ih]
      · simp [equal, hab]

lemma equal_append_ne [DecidableEq α] :
    ∀ (pre : List α) (a b : α) (r1 r2 : List α), a ≠ b →
      equal (pre ++ a :: r1) (pre ++ b :: r2) = false := by
  intro pre
  induction pre with
  | nil => intro a b r1 r2 hab; simp [equal, hab]
  | cons p pre ih => intro a b r1 r2 hab; simp [equal, ih a b r1 r2 hab]

lemma cat_all_ok {α ε : Type} :
    ∀ seqs : List (ErrSeq α ε), (∀ s ∈ seqs, s.err = none) →
      cat seqs = ⟨(seqs.map ErrSeq.vals).flatten, none⟩ := by
  intro seqs
  induction seqs with
  | nil => intro _; rfl
  | cons s rest ih =>
    intro h
    have hs : s.err = none := h s (by simp)
    have hrest := ih (fun t ht => h t (by simp [ht]))
    simp [cat, hs, hrest]

lemma cat_err {α ε : Type} :
    ∀ (pre : List (ErrSeq α ε)) (vs : List α) (e : ε) (post : List (ErrSeq α ε)),
      (∀ s ∈ pre, s.err = none) →
      cat (pre ++ ⟨vs, some e⟩ :: post) = ⟨(pre.map ErrSeq.vals).flatten ++ vs, some e⟩ := by
  intro pre
  induction pre with
  | nil => intro vs e post _; simp [cat]
  | cons p pre ih =>
    intro vs e post h
    have hp : p.err = none := h p (by simp)
    have := ih vs e post (fun t ht => h t (by simp [ht]))
    simp [cat, hp, this]

lemma andGo_all_true (truthy : α → Bool) :
    ∀ (vs : List α) (last : α), (∀ v ∈ vs, truthy v = true) →
      andGo truthy vs (none : Option ε) last = .value (vs.getLastD last) := by
  intro vs
  induction vs with
  | nil => intro last _; rfl
  | cons v rest ih =>
    intro last h
    have hv : truthy v = true := h v (by simp)
    have h2 := ih v (fun w hw => h w (by simp [hw]))
    rw [List.getLastD_cons]
    show (if truthy v = true then andGo truthy rest (none : Option ε) v
          else AndResult.value v) = _
    rw [hv, if_pos rfl]
    exact h2

lemma andGo_first_falsy (truthy : α → Bool) :
    ∀ (pre : List α) (f : α) (rest : List α) (er : Option ε) (last : α),
      (∀ v ∈ pre, truthy v = true) → truthy f = false →
      andGo truthy (pre ++ f :: rest) er last = .value f := by
  intro pre
  induction pre with
  | nil => intro f rest er last _ hf; simp [andGo, hf]
  | cons p pre ih =>
    intro f rest er last h hf
    have hp : truthy p = true := h p (by simp)
    have := ih f rest er p (fun w hw => h w (by simp [hw])) hf
    simp [andGo, hp, this]

lemma foldl_add_eq_sum : ∀ (l : List Nat) (a : Nat), foldl Nat.add a l = a + l.sum := by
  intro l
  induction l with
  | nil => intro a; simp [foldl]
  | cons v rest ih => intro a; simp [foldl, ih, Nat.add_assoc, List.sum_cons, Nat.add_eq]

lemma two_mul_sum_range' : ∀ n : Nat, 2 * (List.range' 1 n).sum = n * (n + 1) := by
  intro n
  induction n with
  | zero => rfl
  | succ m ih =>
    rw [List.range'_concat, List.sum_append, Nat.mul_add, ih]
    simp only [List.sum_cons, List.sum_nil]
    ring

lemma foldrBounded_error_iff (f : α → β → β) (seed : β) :
    ∀ (l : List α) (budget : Nat),
      foldrBounded f seed budget l = .error () ↔ budget < l.length := by
  intro l
  induction l with
  | nil => intro budget; simp [foldrBounded]
  | cons v rest ih =>
    intro budget
    cases budget with
    | zero => simp [foldrBounded]
    | succ d =>
      simp only [foldrBounded]
      constructor
      · intro h
        cases hr : foldrBounded f seed d rest with
        | ok acc => rw [hr] at h; exact absurd h (by simp)
        | error e =>
          have : d < rest.length := (ih d).1 (by rw [hr])
          simpa using Nat.succ_lt_succ this
      · intro h
        have hd : d < rest.length := by simpa using Nat.lt_of_succ_lt_succ h
        have := (ih d).2 hd
        rw [this]

lemma foldrBounded_ok (f : α → β → β) (seed : β) :
    ∀ (l : List α) (budget : Nat), l.length ≤ budget →
      foldrBounded f seed budget l = .ok (l.foldr f seed) := by
  intro l
  induction l with
  | nil => intro budget _; cases budget <;> simp [foldrBounded]
  | cons v rest ih =>
    intro budget h
    cases budget with
    | zero => simp at h
    | succ d =>
      have := ih d (by simpa using Nat.le_of_succ_le_succ h)
      simp [foldrBounded, this]

/-! ## Claim theorems on the simple combinators -/

/-- C8: `EqualityCheck` returns true iff both sequences exhaust together
with all pairs equal; it returns false at the first differing index
independently of everything after it, and false whenever one side exhausts
while the other still has values, in either direction. -/
theorem equalityCheck_lockstep {α : Type} [DecidableEq α] :
    (∀ as bs : List α, equal as bs = true ↔ as = bs) ∧
    (∀ (pre : List α) (a b : α) (r1 r2 : List α), a ≠ b →
      equal (pre ++ a :: r1) (pre ++ b :: r2) = false) ∧
    (∀ (a : α) (as : List α), equal (a :: as) [] = false ∧ equal [] (a :: as) = false) :=
  ⟨equal_eq_true_iff, equal_append_ne, fun _ _ => ⟨rfl, rfl⟩⟩

/-- C8 witness: lockstep equality evaluated on the examples of the spec. -/
theorem equalityCheck_lockstep_witness :
    equal ([] : List Nat) [] = true ∧ equal [1, 2, 3] [1, 2, 3] = true ∧
    equal ([1, 2] ++ 3 :: []) ([1, 2] ++ 4 :: [99]) = false ∧ equal [1, 2, 3] [1, 2] = false :=
  ⟨(equalityCheck_lockstep.1 [] []).2 rfl,
   (equalityCheck_lockstep.1 [1, 2, 3] [1, 2, 3]).2 rfl,
   equalityCheck_lockstep.2.1 [1, 2] 3 4 [] [99] (by decide),
   (equalityCheck_lockstep.2.2 3 []).1⟩

/-- C5: `Concatenate` yields all values of each sequence in order before
the next sequence; when some sequence raises, the concatenation replays the
error-free ones before it, then its values, then raises that same error,
and the result does not depend on the later sequences, which are never
pulled. -/
theorem concatenate_order_and_error {α ε : Type} :
    (∀ seqs : List (ErrSeq α ε), (∀ s ∈ seqs, s.err = none) →
      cat seqs = ⟨(seqs.map ErrSeq.vals).flatten, none⟩) ∧
    (∀ (pre : List (ErrSeq α ε)) (vs : List α) (e : ε) (post : List (ErrSeq α ε)),
      (∀ s ∈ pre, s.err = none) →
      cat (pre ++ ⟨vs, some e⟩ :: post) = ⟨(pre.map ErrSeq.vals).flatten ++ vs, some e⟩) :=
  ⟨cat_all_ok, cat_err⟩

/-- C5 witness: concatenation of 1..4 and 5..8 replays 1..8; a source that
raises after two values stops the chain with that error, and the result is
the same whatever sequence follows it. -/
theorem concatenate_order_and_error_witness :
    cat [(⟨[1, 2, 3, 4], none⟩ : ErrSeq Nat Unit), ⟨[5, 6, 7, 8], none⟩]
      = ⟨[1, 2, 3, 4, 5, 6, 7, 8], none⟩ ∧
    cat [(⟨[1, 2], some ()⟩ : ErrSeq Nat Unit), ⟨[9, 9], none⟩] = ⟨[1, 2], some ()⟩ ∧
    cat [(⟨[1, 2], some ()⟩ : ErrSeq Nat Unit), ⟨[7], some ()⟩] = ⟨[1, 2], some ()⟩ :=
  ⟨by
    have := cat_all_ok (α := Nat) (ε := Unit)
      [⟨[1, 2, 3, 4], none⟩, ⟨[5, 6, 7, 8], none⟩] (by simp)
    simpa using this,
   by
    have := concatenate_order_and_error.2 ([] : List (ErrSeq Nat Unit)) [1, 2] ()
      [⟨[9, 9], none⟩] (by simp)
    simpa using this,
   by
    have := concatenate_order_and_error.2 ([] : List (ErrSeq Nat Unit)) [1, 2] ()
      [⟨[7], some ()⟩] (by simp)
    simpa using this⟩

/-- C7: `BooleanAnd` returns the canonical-true sentinel on the empty
sequence; on the first falsy value it returns that exact value regardless
of everything later in the sequence, including a pending error that is
therefore never triggered; and when every value is truthy it returns the
last value pulled after exhaustion. -/
theorem booleanAnd_shortcircuit {α ε : Type} (truthy : α → Bool) :
    (booleanAnd truthy (⟨[], none⟩ : ErrSeq α ε) = .sentinelTrue) ∧
    (∀ (vs : List α) (h : vs ≠ []), (∀ v ∈ vs, truthy v = true) →
      booleanAnd truthy (⟨vs, none⟩ : ErrSeq α ε) = .value (vs.getLast h)) ∧
    (∀ (pre : List α) (f : α) (rest : List α) (er : Option ε),
      (∀ v ∈ pre, truthy v = true) → truthy f = false →
      booleanAnd truthy ⟨pre ++ f :: rest, er⟩ = .value f) := by
  refine ⟨rfl, ?_, ?_⟩
  · intro vs h hall
    cases vs with
    | nil => exact absurd rfl h
    | cons v rest =>
      have hv : truthy v = true := hall v (by simp)
      have := andGo_all_true (ε := ε) truthy rest v (fun w hw => hall w (by simp [hw]))
      simp [booleanAnd, hv, this, List.getLast_eq_getLastD]
  · intro pre f rest er hall hf
    cases pre with
    | nil => simp [booleanAnd, hf]
    | cons p pre =>
      have hp : truthy p = true := hall p (by simp)
      have := andGo_first_falsy truthy pre f rest er p (fun w hw => hall w (by simp [hw])) hf
      simp [booleanAnd, hp, this]

/-- C7 witness: with truthiness being nonzero-ness, the empty sequence
gives the sentinel, `[1,2,3,4]` gives 4, and `[1,0,...]` gives 0 without
touching the pending error. -/
theorem booleanAnd_shortcircuit_witness :
    booleanAnd (fun v => v ≠ 0 : Nat → Bool) (⟨[], none⟩ : ErrSeq Nat Unit) = .sentinelTrue ∧
    booleanAnd (fun v => v ≠ 0 : Nat → Bool) (⟨[1, 2, 3, 4], none⟩ : ErrSeq Nat Unit)
      = .value 4 ∧
    booleanAnd (fun v => v ≠ 0 : Nat → Bool) (⟨[1] ++ 0 :: [5], some ()⟩ : ErrSeq Nat Unit)
      = .value 0 :=
  ⟨(booleanAnd_shortcircuit (fun v => v ≠ 0 : Nat → Bool)).1,
   (booleanAnd_shortcircuit (fun v => v ≠ 0 : Nat → Bool)).2.1 [1, 2, 3, 4]
     (by decide) (by decide),
   (booleanAnd_shortcircuit (fun v => v ≠ 0 : Nat → Bool)).2.2 [1] 0 [5] (some ())
     (by decide) (by decide)⟩

/-- C6: `FoldLeft` is a total function of the sequence, needing no stack
budget, and sums 1..10000 to 50005000; `FoldRight`, whose pending
continuations consume one budget unit per element, fails with resource
exhaustion exactly when the sequence is longer than the budget, so every
budget below 10000 fails on 1..10000, while on 1..100 it agrees with
`FoldLeft` on 5050. -/
theorem folds_resource_contract :
    foldl Nat.add 0 (List.range' 1 10000) = 50005000 ∧
    (∀ budget : Nat, budget < 10000 →
      foldrBounded Nat.add 0 budget (List.range' 1 10000) = .error ()) ∧
    foldl Nat.add 0 (List.range' 1 100) = 5050 ∧
    foldrBounded Nat.add 0 1000 (List.range' 1 100) = .ok 5050 ∧
    (∀ (α β : Type) (f : α → β → β) (seed : β) (budget : Nat) (l : List α),
      foldrBounded f seed budget l = .error () ↔ budget < l.length) ∧
    (∀ (α β : Type) (f : α → β → β) (seed : β) (budget : Nat) (l : List α),
      l.length ≤ budget → foldrBounded f seed budget l = .ok (l.foldr f seed)) := by
  have hsum10000 : (List.range' 1 10000).sum = 50005000 := by
    have := two_mul_sum_range' 10000; omega
  have hsum100 : (List.range' 1 100).sum = 5050 := by
    have := two_mul_sum_range' 100; omega
  refine ⟨?_, ?_, ?_, ?_, ?_, ?_⟩
  · rw [foldl_add_eq_sum, hsum10000]
  · intro budget hb
    exact (foldrBounded_error_iff Nat.add 0 (List.range' 1 10000) budget).2
      (by simpa [List.length_range'] using hb)
  · rw [foldl_add_eq_sum, hsum100]
  · rw [foldrBounded_ok Nat.add 0 (List.range' 1 100) 1000 (by simp [List.length_range'])]
    have : (List.range' 1 100).foldr Nat.add 0 = (List.range' 1 100).sum := by
      rw [List.sum_eq_foldr]
      exact rfl
    rw [this, hsum100]
  · intro α β f seed budget l; exact foldrBounded_error_iff f seed l budget
  · intro α β f seed budget l h; exact foldrBounded_ok f seed l budget h

/-- C6 witness: the resource contract applied at budget 1000 (the Python
default recursion budget) on the 10000-element sequence, and the general
error criterion applied at a tiny concrete instance. -/
theorem folds_resource_contract_witness :
    foldrBounded Nat.add 0 1000 (List.range' 1 10000) = .error () ∧
    (foldrBounded Nat.add 0 2 [10, 20, 30] = .error () ↔ 2 < [10, 20, 30].length) :=
  ⟨folds_resource_contract.2.1 1000 (by decide),
   folds_resource_contract.2.2.2.2.1 Nat Nat Nat.add 0 2 [10, 20, 30]⟩

end Lazy

namespace FsAbilities

/-- C9: `set_chars_to_quote` assigns exactly one of four strings, selected
by the case-sensitivity and unusual-character probes, and can produce no
other value. -/
theorem set_chars_to_quote_four_values :
    set_chars_to_quote true true = "" ∧
    set_chars_to_quote true false = "^A-Za-z0-9_ -." ∧
    set_chars_to_quote false true = "A-Z;" ∧
    set_chars_to_quote false false = "^a-z0-9_ -." ∧
    (∀ cs u : Bool,
      set_chars_to_quote cs u = "" ∨ set_chars_to_quote cs u = "^A-Za-z0-9_ -." ∨
      set_chars_to_quote cs u = "A-Z;" ∨ set_chars_to_quote cs u = "^a-z0-9_ -.") := by
  refine ⟨rfl, rfl, rfl, rfl, ?_⟩
  intro cs u
  cases cs <;> cases u <;> simp [set_chars_to_quote]

/-- C10: `init_readonly` sets `read_only` to 1 and determines only `eas`,
`acls` and `resource_forks`; it leaves `chars_to_quote`, `ownership`,
`hardlinks`, `fsync_dirs` and `dir_inc_perms` unchanged, so starting from
the class defaults they remain `none` and are rendered as N/A. -/
theorem init_readonly_frame (ea ac rf : Bool) (s : FSAbilities) :
    (init_readonly ea ac rf s).read_only = some 1 ∧
    (init_readonly ea ac rf s).eas = some ea ∧
    (init_readonly ea ac rf s).acls = some ac ∧
    (init_readonly ea ac rf s).resource_forks = some rf ∧
    (init_readonly ea ac rf s).chars_to_quote = s.chars_to_quote ∧
    (init_readonly ea ac rf s).ownership = s.ownership ∧
    (init_readonly ea ac rf s).hardlinks = s.hardlinks ∧
    (init_readonly ea ac rf s).fsync_dirs = s.fsync_dirs ∧
    (init_readonly ea ac rf s).dir_inc_perms = s.dir_inc_perms ∧
    (init_readonly ea ac rf {}).chars_to_quote = none ∧
    val_text (init_readonly ea ac rf {}).ownership = "N/A" ∧
    val_text (init_readonly ea ac rf {}).hardlinks = "N/A" ∧
    val_text (init_readonly ea ac rf {}).fsync_dirs = "N/A" ∧
    val_text (init_readonly ea ac rf {}).dir_inc_perms = "N/A" :=
  ⟨rfl, rfl, rfl, rfl, rfl, rfl, rfl, rfl, rfl, rfl, rfl, rfl, rfl, rfl⟩

/-- C9 witness: the case-insensitive, unusual-characters-supported probe
outcome yields the quoting set of uppercase letters and semicolon. -/
theorem set_chars_to_quote_four_values_witness :
    set_chars_to_quote false true = "A-Z;" :=
  set_chars_to_quote_four_values.2.2.1

/-- C10 witness: a read-only probe on a fresh `FSAbilities` leaves
`ownership` at the class default, rendered N/A, while `read_only` is 1. -/
theorem init_readonly_frame_witness :
    (init_readonly true false true {}).read_only = some 1 ∧
    (init_readonly true false true {}).ownership = none :=
  ⟨(init_readonly_frame true false true {}).1,
   ((init_readonly_frame true false true {}).2.2.2.2.2.1).trans rfl⟩

end FsAbilities

namespace Lazy

/-! ## Cursor-minimum and list-update lemmas -/

lemma nat_min?_eq_some_iff {l : List Nat} {a : Nat} :
    l.min? = some a ↔ a ∈ l ∧ ∀ b ∈ l, a ≤ b :=
  List.min?_eq_some_iff (fun a => Nat.le_refl a) (fun a b => by omega) (fun a b c => by omega)

lemma listMin_spec {l : List Nat} (h : l ≠ []) : listMin l ∈ l ∧ ∀ b ∈ l, listMin l ≤ b := by
  cases hm : l.min? with
  | none => exact absurd (List.min?_eq_none_iff.1 hm) h
  | some m =>
    have := nat_min?_eq_some_iff.1 hm
    simpa [listMin, hm] using this

lemma listMin_le_of_mem {l : List Nat} {c : Nat} (hc : c ∈ l) : listMin l ≤ c :=
  (listMin_spec (List.ne_nil_of_mem hc)).2 c hc

lemma listMin_le_getD {l : List Nat} {i : Nat} (hi : i < l.length) :
    listMin l ≤ l.getD i 0 := by
  rw [List.getD_eq_getElem l 0 hi]
  exact listMin_le_of_mem (List.getElem_mem hi)

lemma listMin_set_ge {l : List Nat} {i c : Nat} (hi : i < l.length)
    (hc : l.getD i 0 ≤ c) : listMin l ≤ listMin (l.set i c) := by
  have hne : l.set i c ≠ [] := by
    apply List.ne_nil_of_length_pos
    rw [List.length_set]
    omega
  rcases List.mem_or_eq_of_mem_set (listMin_spec hne).1 with h | h
  · exact listMin_le_of_mem h
  · rw [h]
    exact Nat.le_trans (listMin_le_getD hi) hc

lemma getD_set_self {l : List β} {i : Nat} (hi : i < l.length) (a d : β) :
    (l.set i a).getD i d = a := by
  rw [List.getD_eq_getElem?_getD, List.getElem?_set]
  simp [hi]

lemma getD_set_ne {l : List β} {i j : Nat} (h : i ≠ j) (a d : β) :
    (l.set i a).getD j d = l.getD j d := by
  rw [List.getD_eq_getElem?_getD, List.getElem?_set, if_neg h, ← List.getD_eq_getElem?_getD]

lemma getD_replicate {n i : Nat} (hi : i < n) (a d : β) :
    (List.replicate n a).getD i d = a := by
  have hl : i < (List.replicate n a).length := by simpa using hi
  rw [List.getD_eq_getElem _ _ hl, List.getElem_replicate]

/-! ## Equations of mpxPull, one per branch -/

lemma mpxPull_oob (s : MpxState α ε) (i : Nat) (hi : ¬ i < s.cursors.length) :
    mpxPull s i = (.bug, s) := by
  unfold mpxPull
  rw [if_neg hi]

lemma mpxPull_term (s : MpxState α ε) (i : Nat) (hi : i < s.cursors.length)
    (ht : s.term.getD i false = true) : mpxPull s i = (.done, s) := by
  unfold mpxPull
  rw [if_pos hi, if_pos ht]

lemma mpxPull_buf (s : MpxState α ε) (i : Nat) (v : α) (hi : i < s.cursors.length)
    (ht : s.term.getD i false = false) (hc : s.cursors.getD i 0 < s.pos)
    (hv : s.queue[s.cursors.getD i 0 - (s.pos - s.queue.length)]? = some v) :
    mpxPull s i = (.val v, { s with
      cursors := s.cursors.set i (s.cursors.getD i 0 + 1)
      queue := s.queue.drop
        (listMin (s.cursors.set i (s.cursors.getD i 0 + 1)) - (s.pos - s.queue.length))
      obs := s.obs.set i (s.obs.getD i [] ++ [v]) }) := by
  unfold mpxPull
  rw [if_pos hi, if_neg (by rw [ht]; exact Bool.false_ne_true)]
  dsimp only
  rw [if_pos hc, hv]

lemma mpxPull_frontier (s : MpxState α ε) (i : Nat) (v : α) (rest : List α)
    (hi : i < s.cursors.length) (ht : s.term.getD i false = false)
    (hce : s.cursors.getD i 0 = s.pos) (hrem : s.remaining = v :: rest) :
    mpxPull s i = (.val v, { s with
      remaining := rest
      pos := s.pos + 1
      cursors := s.cursors.set i (s.pos + 1)
      queue := (s.queue ++ [v]).drop
        (listMin (s.cursors.set i (s.pos + 1)) - (s.pos - s.queue.length))
      count := s.count + 1
      obs := s.obs.set i (s.obs.getD i [] ++ [v]) }) := by
  unfold mpxPull
  rw [if_pos hi, if_neg (by rw [ht]; exact Bool.false_ne_true)]
  dsimp only
  rw [if_neg (by omega), if_pos hce, hrem, hce]

lemma mpxPull_frontier_err (s : MpxState α ε) (i : Nat) (e : ε)
    (hi : i < s.cursors.length) (ht : s.term.getD i false = false)
    (hce : s.cursors.getD i 0 = s.pos) (hrem : s.remaining = [])
    (he : s.srcErr = some e) :
    mpxPull s i = (.err e, { s with
      term := s.term.set i true
      errObs := s.errObs.set i (s.errObs.getD i 0 + 1) }) := by
  unfold mpxPull
  rw [if_pos hi, if_neg (by rw [ht]; exact Bool.false_ne_true)]
  dsimp only
  rw [if_neg (by omega), if_pos hce, hrem, he]

lemma mpxPull_frontier_done (s : MpxState α ε) (i : Nat)
    (hi : i < s.cursors.length) (ht : s.term.getD i false = false)
    (hce : s.cursors.getD i 0 = s.pos) (hrem : s.remaining = [])
    (he : s.srcErr = none) :
    mpxPull s i = (.done, { s with term := s.term.set i true }) := by
  unfold mpxPull
  rw [if_pos hi, if_neg (by rw [ht]; exact Bool.false_ne_true)]
  dsimp only
  rw [if_neg (by omega), if_pos hce, hrem, he]

lemma mpxPull_past (s : MpxState α ε) (i : Nat) (hi : i < s.cursors.length)
    (ht : s.term.getD i false = false) (hgt : s.pos < s.cursors.getD i 0) :
    mpxPull s i = (.bug, s) := by
  unfold mpxPull
  rw [if_pos hi, if_neg (by rw [ht]; exact Bool.false_ne_true)]
  dsimp only
  rw [if_neg (by omega), if_neg (by omega)]

end Lazy

namespace Lazy

/-! ## Invariant: establishment and shared consequences -/

lemma getD_mem {l : List β} {i : Nat} (hi : i < l.length) (d : β) : l.getD i d ∈ l := by
  rw [List.getD_eq_getElem l d hi]
  exact List.getElem_mem hi

lemma take_succ_of_lt {xs : List β} {c : Nat} (hlt : c < xs.length) :
    List.take (c + 1) xs = List.take c xs ++ [xs.get ⟨c, hlt⟩] := by
  rw [List.take_succ, List.getElem?_eq_getElem hlt]
  rfl

lemma mpx_inv_init (src : ErrSeq α ε) (n : Nat) :
    MpxInv src.vals src.err n (mpxInit src n) := by
  refine ⟨?_, ?_, ?_, ?_, ?_, ?_, ?_, ?_, ?_, ?_, ?_, ?_, ?_⟩
  · simp [mpxInit]
  · simp [mpxInit]
  · simp [mpxInit]
  · simp [mpxInit]
  · simp [mpxInit]
  · simp [mpxInit]
  · rfl
  · intro c hc
    rw [mpxInit] at hc
    simp only [List.mem_replicate] at hc
    omega
  · simp [mpxInit]
  · rfl
  · intro j hj
    rw [mpxInit]
    dsimp only
    rw [getD_replicate hj, getD_replicate hj]
    simp
  · intro j hj ht
    rw [mpxInit] at ht
    dsimp only at ht
    rw [getD_replicate hj] at ht
    exact absurd ht (by simp)
  · intro j hj
    rw [mpxInit]
    dsimp only
    rw [getD_replicate hj, getD_replicate hj]
    simp

lemma mpx_cursor_le_pos (h : MpxInv xs er n s) {i : Nat} (hi : i < s.cursors.length) :
    s.cursors.getD i 0 ≤ s.pos :=
  h.hle _ (getD_mem hi 0)

lemma mpx_min_le_pos (h : MpxInv xs er n s) {i : Nat} (hi : i < s.cursors.length) :
    listMin s.cursors ≤ s.pos :=
  Nat.le_trans (listMin_le_getD hi) (mpx_cursor_le_pos h hi)

lemma mpx_queue_len (h : MpxInv xs er n s) :
    s.queue.length = s.pos - listMin s.cursors := by
  rw [h.hq, List.length_drop, List.length_take]
  have := h.hpos
  omega

lemma mpx_qstart (h : MpxInv xs er n s) {i : Nat} (hi : i < s.cursors.length) :
    s.pos - s.queue.length = listMin s.cursors := by
  have h1 := mpx_queue_len h
  have h2 := mpx_min_le_pos h hi
  omega

lemma mpx_queue_lookup (h : MpxInv xs er n s) {i : Nat} (hi : i < s.cursors.length)
    (hc : s.cursors.getD i 0 < s.pos) :
    ∃ hlt : s.cursors.getD i 0 < xs.length,
      s.queue[s.cursors.getD i 0 - (s.pos - s.queue.length)]? =
        some (xs.get ⟨s.cursors.getD i 0, hlt⟩) := by
  have hlt : s.cursors.getD i 0 < xs.length := Nat.lt_of_lt_of_le hc h.hpos
  have hm : listMin s.cursors ≤ s.cursors.getD i 0 := listMin_le_getD hi
  refine ⟨hlt, ?_⟩
  rw [mpx_qstart h hi, h.hq, List.getElem?_drop]
  rw [show listMin s.cursors + (s.cursors.getD i 0 - listMin s.cursors)
        = s.cursors.getD i 0 from by omega]
  rw [List.getElem?_take, if_pos hc, List.getElem?_eq_getElem hlt]
  rfl

end Lazy

namespace Lazy

/-! ## Invariant preservation, one lemma per mpxPull branch -/

lemma mpx_inv_buf {α ε : Type} {xs : List α} {er : Option ε} {n : Nat}
    {s : MpxState α ε} (h : MpxInv xs er n s) {i : Nat} (hi : i < s.cursors.length)
    (ht : s.term.getD i false = false) (hc : s.cursors.getD i 0 < s.pos)
    (hlt : s.cursors.getD i 0 < xs.length) :
    MpxInv xs er n { s with
      cursors := s.cursors.set i (s.cursors.getD i 0 + 1)
      queue := s.queue.drop
        (listMin (s.cursors.set i (s.cursors.getD i 0 + 1)) - (s.pos - s.queue.length))
      obs := s.obs.set i (s.obs.getD i [] ++ [xs.get ⟨s.cursors.getD i 0, hlt⟩]) } := by
  have hin : i < n := h.hcur ▸ hi
  have hio : i < s.obs.length := by rw [h.hobs]; exact hin
  have hqs : s.pos - s.queue.length = listMin s.cursors := mpx_qstart h hi
  have hmle : listMin s.cursors ≤ s.cursors.getD i 0 := listMin_le_getD hi
  have hm2 : listMin s.cursors ≤ listMin (s.cursors.set i (s.cursors.getD i 0 + 1)) :=
    listMin_set_ge hi (by omega)
  refine ⟨?_, ?_, ?_, ?_, ?_, ?_, ?_, ?_, ?_, ?_, ?_, ?_, ?_⟩
  all_goals try dsimp only
  · simp [List.length_set, h.hcur]
  · exact h.hterm
  · simp [List.length_set, h.hobs]
  · exact h.herrObs
  · exact h.hpos
  · exact h.hrem
  · exact h.hsrc
  · intro c' hc'
    rcases List.mem_or_eq_of_mem_set hc' with h' | h'
    · exact h.hle _ h'
    · have := hc
      omega
  · rw [hqs, h.hq, List.drop_drop]
    congr 1
    omega
  · exact h.hcount
  · intro j hj
    by_cases hji : j = i
    · subst hji
      rw [getD_set_self hio, getD_set_self hi, h.hobsEq j hj, take_succ_of_lt hlt]
    · rw [getD_set_ne (fun he => hji he.symm), getD_set_ne (fun he => hji he.symm)]
      exact h.hobsEq j hj
  · intro j hj htj
    by_cases hji : j = i
    · subst hji
      rw [ht] at htj
      exact absurd htj (by simp)
    · rw [getD_set_ne (fun he => hji he.symm)]
      exact h.htermEq j hj htj
  · intro j hj
    exact h.herrObsEq j hj

lemma mpx_inv_frontier {α ε : Type} {xs : List α} {er : Option ε} {n : Nat}
    {s : MpxState α ε} (h : MpxInv xs er n s) {i : Nat} (hi : i < s.cursors.length)
    (ht : s.term.getD i false = false) (hce : s.cursors.getD i 0 = s.pos)
    {v : α} {rest : List α} (hrem : s.remaining = v :: rest) :
    MpxInv xs er n { s with
      remaining := rest
      pos := s.pos + 1
      cursors := s.cursors.set i (s.pos + 1)
      queue := (s.queue ++ [v]).drop
        (listMin (s.cursors.set i (s.pos + 1)) - (s.pos - s.queue.length))
      count := s.count + 1
      obs := s.obs.set i (s.obs.getD i [] ++ [v]) } := by
  have hin : i < n := h.hcur ▸ hi
  have hio : i < s.obs.length := by rw [h.hobs]; exact hin
  have hqs : s.pos - s.queue.length = listMin s.cursors := mpx_qstart h hi
  have hmlepos : listMin s.cursors ≤ s.pos := mpx_min_le_pos h hi
  have hdrop : List.drop s.pos xs = v :: rest := by rw [← h.hrem, hrem]
  have hposlt : s.pos < xs.length := by
    have h1 := congrArg List.length hdrop
    simp only [List.length_drop, List.length_cons] at h1
    omega
  have hxv : xs[s.pos]? = some v := by
    have h0 : (List.drop s.pos xs)[0]? = some v := by rw [hdrop]; simp
    rw [List.getElem?_drop] at h0
    simpa using h0
  have hvget : v = xs.get ⟨s.pos, hposlt⟩ :=
    Option.some.inj (hxv.symm.trans (List.getElem?_eq_getElem hposlt))
  have hrest : rest = List.drop (s.pos + 1) xs := by
    have h1 := congrArg List.tail hdrop
    rw [List.tail_drop] at h1
    exact h1.symm
  have hm2 : listMin s.cursors ≤ listMin (s.cursors.set i (s.pos + 1)) :=
    listMin_set_ge hi (by omega)
  refine ⟨?_, ?_, ?_, ?_, ?_, ?_, ?_, ?_, ?_, ?_, ?_, ?_, ?_⟩
  all_goals try dsimp only
  · simp [List.length_set, h.hcur]
  · exact h.hterm
  · simp [List.length_set, h.hobs]
  · exact h.herrObs
  · omega
  · exact hrest
  · exact h.hsrc
  · intro c' hc'
    rcases List.mem_or_eq_of_mem_set hc' with h' | h'
    · have := h.hle _ h'
      omega
    · omega
  · rw [hqs, h.hq,
      ← List.drop_append_of_le_length (by simp [List.length_take]; omega),
      List.drop_drop,
      show List.take s.pos xs ++ [v] = List.take (s.pos + 1) xs from by
        rw [hvget, ← take_succ_of_lt hposlt]]
    congr 1
    omega
  · rw [h.hcount]
  · intro j hj
    by_cases hji : j = i
    · subst hji
      rw [getD_set_self hio, getD_set_self hi, h.hobsEq j hj, hce, hvget,
        take_succ_of_lt hposlt]
    · rw [getD_set_ne (fun he => hji he.symm), getD_set_ne (fun he => hji he.symm)]
      exact h.hobsEq j hj
  · intro j hj htj
    by_cases hji : j = i
    · subst hji
      rw [ht] at htj
      exact absurd htj (by simp)
    · rw [getD_set_ne (fun he => hji he.symm)]
      exact h.htermEq j hj htj
  · intro j hj
    exact h.herrObsEq j hj

lemma mpx_inv_err {α ε : Type} {xs : List α} {er : Option ε} {n : Nat}
    {s : MpxState α ε} (h : MpxInv xs er n s) {i : Nat} (hi : i < s.cursors.length)
    (ht : s.term.getD i false = false) (hce : s.cursors.getD i 0 = s.pos)
    (hrem : s.remaining = []) {e : ε} (he : s.srcErr = some e) :
    MpxInv xs er n { s with
      term := s.term.set i true
      errObs := s.errObs.set i (s.errObs.getD i 0 + 1) } := by
  have hin : i < n := h.hcur ▸ hi
  have hit : i < s.term.length := by rw [h.hterm]; exact hin
  have hie : i < s.errObs.length := by rw [h.herrObs]; exact hin
  have hposlen : s.pos = xs.length := by
    have hdrop : List.drop s.pos xs = [] := by rw [← h.hrem, hrem]
    have h1 := congrArg List.length hdrop
    simp only [List.length_drop, List.length_nil] at h1
    have := h.hpos
    omega
  have her : er = some e := h.hsrc.symm.trans he
  refine ⟨?_, ?_, ?_, ?_, ?_, ?_, ?_, ?_, ?_, ?_, ?_, ?_, ?_⟩
  all_goals try dsimp only
  · exact h.hcur
  · simp [List.length_set, h.hterm]
  · exact h.hobs
  · simp [List.length_set, h.herrObs]
  · exact h.hpos
  · exact h.hrem
  · exact h.hsrc
  · exact h.hle
  · exact h.hq
  · exact h.hcount
  · intro j hj
    exact h.hobsEq j hj
  · intro j hj htj
    by_cases hji : j = i
    · subst hji
      exact hce.trans hposlen
    · rw [getD_set_ne (fun hx => hji hx.symm)] at htj
      exact h.htermEq j hj htj
  · intro j hj
    by_cases hji : j = i
    · subst hji
      rw [getD_set_self hie, getD_set_self hit]
      have h0 : s.errObs.getD j 0 = 0 := by
        rw [h.herrObsEq j hj, ht]
        simp
      rw [h0, her]
      simp
    · rw [getD_set_ne (fun hx => hji hx.symm), getD_set_ne (fun hx => hji hx.symm)]
      exact h.herrObsEq j hj

lemma mpx_inv_done {α ε : Type} {xs : List α} {er : Option ε} {n : Nat}
    {s : MpxState α ε} (h : MpxInv xs er n s) {i : Nat} (hi : i < s.cursors.length)
    (ht : s.term.getD i false = false) (hce : s.cursors.getD i 0 = s.pos)
    (hrem : s.remaining = []) (he : s.srcErr = none) :
    MpxInv xs er n { s with term := s.term.set i true } := by
  have hin : i < n := h.hcur ▸ hi
  have hit : i < s.term.length := by rw [h.hterm]; exact hin
  have hposlen : s.pos = xs.length := by
    have hdrop : List.drop s.pos xs = [] := by rw [← h.hrem, hrem]
    have h1 := congrArg List.length hdrop
    simp only [List.length_drop, List.length_nil] at h1
    have := h.hpos
    omega
  have her : er = none := h.hsrc.symm.trans he
  refine ⟨?_, ?_, ?_, ?_, ?_, ?_, ?_, ?_, ?_, ?_, ?_, ?_, ?_⟩
  all_goals try dsimp only
  · exact h.hcur
  · simp [List.length_set, h.hterm]
  · exact h.hobs
  · exact h.herrObs
  · exact h.hpos
  · exact h.hrem
  · exact h.hsrc
  · exact h.hle
  · exact h.hq
  · exact h.hcount
  · intro j hj
    exact h.hobsEq j hj
  · intro j hj htj
    by_cases hji : j = i
    · subst hji
      exact hce.trans hposlen
    · rw [getD_set_ne (fun hx => hji hx.symm)] at htj
      exact h.htermEq j hj htj
  · intro j hj
    rw [her]
    by_cases hji : j = i
    · subst hji
      have h0 : s.errObs.getD j 0 = 0 := by
        rw [h.herrObsEq j hj, ht]
        simp
      rw [h0]
      simp
    · rw [getD_set_ne (fun hx => hji hx.symm)]
      have := h.herrObsEq j hj
      rw [her] at this
      simpa using this

end Lazy

namespace Lazy

/-! ## Preservation along any schedule -/

lemma mpx_inv_pull {α ε : Type} {xs : List α} {er : Option ε} {n : Nat}
    {s : MpxState α ε} (h : MpxInv xs er n s) (i : Nat) :
    MpxInv xs er n (mpxPull s i).2 := by
  by_cases hi : i < s.cursors.length
  · cases ht : s.term.getD i false with
    | true =>
      rw [mpxPull_term s i hi ht]
      exact h
    | false =>
      rcases Nat.lt_trichotomy (s.cursors.getD i 0) s.pos with hc | hc | hc
      · obtain ⟨hlt, hv⟩ := mpx_queue_lookup h hi hc
        rw [mpxPull_buf s i _ hi ht hc hv]
        exact mpx_inv_buf h hi ht hc hlt
      · cases hrem : s.remaining with
        | cons v rest =>
          rw [mpxPull_frontier s i v rest hi ht hc hrem]
          exact mpx_inv_frontier h hi ht hc hrem
        | nil =>
          cases he : s.srcErr with
          | some e =>
            rw [mpxPull_frontier_err s i e hi ht hc hrem he]
            exact mpx_inv_err h hi ht hc hrem he
          | none =>
            rw [mpxPull_frontier_done s i hi ht hc hrem he]
            exact mpx_inv_done h hi ht hc hrem he
      · rw [mpxPull_past s i hi ht hc]
        exact h
  · rw [mpxPull_oob s i hi]
    exact h

lemma mpx_inv_run {α ε : Type} {xs : List α} {er : Option ε} {n : Nat}
    (sched : List Nat) :
    ∀ {s : MpxState α ε}, MpxInv xs er n s → MpxInv xs er n (mpxRun s sched) := by
  induction sched with
  | nil => intro s h; exact h
  | cons i sched ih =>
    intro s h
    exact ih (mpx_inv_pull h i)

lemma mpx_inv_reached {α ε : Type} (src : ErrSeq α ε) (n : Nat) (sched : List Nat) :
    MpxInv src.vals src.err n (mpxRun (mpxInit src n) sched) :=
  mpx_inv_run sched (mpx_inv_init src n)

/-! ## Step lemmas -/

lemma mpx_cursors_mono {α ε : Type} (s : MpxState α ε) (i j : Nat) :
    s.cursors.getD j 0 ≤ ((mpxPull s i).2).cursors.getD j 0 := by
  by_cases hi : i < s.cursors.length
  · cases ht : s.term.getD i false with
    | true =>
      rw [mpxPull_term s i hi ht]
    | false =>
      rcases Nat.lt_trichotomy (s.cursors.getD i 0) s.pos with hc | hc | hc
      · rcases hv : s.queue[s.cursors.getD i 0 - (s.pos - s.queue.length)]? with _ | v
        · rw [show mpxPull s i = (.bug, s) from by
            unfold mpxPull
            rw [if_pos hi, if_neg (by rw [ht]; exact Bool.false_ne_true)]
            dsimp only
            rw [if_pos hc, hv]]
        · rw [mpxPull_buf s i v hi ht hc hv]
          dsimp only
          by_cases hji : j = i
          · subst hji
            rw [getD_set_self hi]
            omega
          · rw [getD_set_ne (fun hx => hji hx.symm)]
      · cases hrem : s.remaining with
        | cons v rest =>
          rw [mpxPull_frontier s i v rest hi ht hc hrem]
          dsimp only
          by_cases hji : j = i
          · subst hji
            rw [getD_set_self hi, hc]
            omega
          · rw [getD_set_ne (fun hx => hji hx.symm)]
        | nil =>
          cases he : s.srcErr with
          | some e => rw [mpxPull_frontier_err s i e hi ht hc hrem he]
          | none => rw [mpxPull_frontier_done s i hi ht hc hrem he]
      · rw [mpxPull_past s i hi ht hc]
  · rw [mpxPull_oob s i hi]

lemma mpx_pos_stable_unless_frontier {α ε : Type} (s : MpxState α ε) (i : Nat)
    (hch : ((mpxPull s i).2).pos ≠ s.pos) :
    s.cursors.getD i 0 = s.pos ∧ s.term.getD i false = false := by
  by_cases hi : i < s.cursors.length
  · cases ht : s.term.getD i false with
    | true =>
      rw [mpxPull_term s i hi ht] at hch
      exact absurd rfl hch
    | false =>
      rcases Nat.lt_trichotomy (s.cursors.getD i 0) s.pos with hc | hc | hc
      · rcases hv : s.queue[s.cursors.getD i 0 - (s.pos - s.queue.length)]? with _ | v
        · rw [show mpxPull s i = (.bug, s) from by
            unfold mpxPull
            rw [if_pos hi, if_neg (by rw [ht]; exact Bool.false_ne_true)]
            dsimp only
            rw [if_pos hc, hv]] at hch
          exact absurd rfl hch
        · rw [mpxPull_buf s i v hi ht hc hv] at hch
          exact absurd rfl hch
      · exact ⟨hc, rfl⟩
      · rw [mpxPull_past s i hi ht hc] at hch
        exact absurd rfl hch
  · rw [mpxPull_oob s i hi] at hch
    exact absurd rfl hch

lemma mpx_no_bug {α ε : Type} {xs : List α} {er : Option ε} {n : Nat}
    {s : MpxState α ε} (h : MpxInv xs er n s) {i : Nat} (hi : i < n) :
    (mpxPull s i).1 ≠ PullResult.bug := by
  have hic : i < s.cursors.length := by rw [h.hcur]; exact hi
  cases ht : s.term.getD i false with
  | true =>
    rw [mpxPull_term s i hic ht]
    simp
  | false =>
    rcases Nat.lt_trichotomy (s.cursors.getD i 0) s.pos with hc | hc | hc
    · obtain ⟨hlt, hv⟩ := mpx_queue_lookup h hic hc
      rw [mpxPull_buf s i _ hic ht hc hv]
      simp
    · cases hrem : s.remaining with
      | cons v rest =>
        rw [mpxPull_frontier s i v rest hic ht hc hrem]
        simp
      | nil =>
        cases he : s.srcErr with
        | some e =>
          rw [mpxPull_frontier_err s i e hic ht hc hrem he]
          simp
        | none =>
          rw [mpxPull_frontier_done s i hic ht hc hrem he]
          simp
    · exact absurd hc (by have := mpx_cursor_le_pos h hic; omega)

end Lazy

namespace Lazy

/-! ## Claim theorems on the multiplexer -/

/-- C1: each of the `n` outputs of `Multiplex(seq, n)` replays the source:
under every interleaving of pulls, output `i` has observed exactly the
prefix of the source values below its own cursor, in order, and an output
that has been fully drained (reached its terminal signal) has observed
exactly the whole source value sequence. -/
theorem multiplex_outputs_replay_source {α ε : Type} (vals : List α) (n : Nat)
    (hn : 1 ≤ n) (sched : List Nat) (i : Nat) (hi : i < n) :
    (mpxFinal (⟨vals, none⟩ : ErrSeq α ε) n sched).obs.getD i []
      = List.take ((mpxFinal (⟨vals, none⟩ : ErrSeq α ε) n sched).cursors.getD i 0) vals
    ∧ ((mpxFinal (⟨vals, none⟩ : ErrSeq α ε) n sched).term.getD i false = true →
        (mpxFinal (⟨vals, none⟩ : ErrSeq α ε) n sched).obs.getD i [] = vals) := by
  have h : MpxInv vals none n (mpxFinal (⟨vals, none⟩ : ErrSeq α ε) n sched) :=
    mpx_inv_reached (⟨vals, none⟩ : ErrSeq α ε) n sched
  refine ⟨h.hobsEq i hi, fun ht => ?_⟩
  rw [h.hobsEq i hi, h.htermEq i hi ht]
  exact List.take_length vals

/-- C1 witness: three outputs of a multiplexed 3-value source, drained
round-robin; output 0 has observed the prefix below its cursor, and being
terminal it has observed the whole source. -/
theorem multiplex_outputs_replay_source_witness :
    ((mpxFinal (⟨[1, 2, 3], none⟩ : ErrSeq Nat Unit) 3
        [0, 1, 2, 0, 1, 2, 0, 1, 2, 0, 1, 2]).obs.getD 0 []
      = List.take ((mpxFinal (⟨[1, 2, 3], none⟩ : ErrSeq Nat Unit) 3
        [0, 1, 2, 0, 1, 2, 0, 1, 2, 0, 1, 2]).cursors.getD 0 0) [1, 2, 3]
    ∧ ((mpxFinal (⟨[1, 2, 3], none⟩ : ErrSeq Nat Unit) 3
        [0, 1, 2, 0, 1, 2, 0, 1, 2, 0, 1, 2]).term.getD 0 false = true →
        (mpxFinal (⟨[1, 2, 3], none⟩ : ErrSeq Nat Unit) 3
          [0, 1, 2, 0, 1, 2, 0, 1, 2, 0, 1, 2]).obs.getD 0 [] = [1, 2, 3]))
    ∧ (mpxFinal (⟨[1, 2, 3], none⟩ : ErrSeq Nat Unit) 3
        [0, 1, 2, 0, 1, 2, 0, 1, 2, 0, 1, 2]).obs.getD 0 [] = [1, 2, 3] :=
  ⟨multiplex_outputs_replay_source [1, 2, 3] 3 (by decide)
      [0, 1, 2, 0, 1, 2, 0, 1, 2, 0, 1, 2] 0 (by decide),
   (multiplex_outputs_replay_source [1, 2, 3] 3 (by decide)
      [0, 1, 2, 0, 1, 2, 0, 1, 2, 0, 1, 2] 0 (by decide)).2 (by decide)⟩

/-- C2: the callback of `Multiplex(seq, n, onEachValue)` has fired exactly
once per value pulled from the source (`count = pos`, never once per
output), the source is never over-pulled, and once any output has consumed
the whole source the callback has fired exactly once per source value. -/
theorem multiplex_callback_once_per_value {α ε : Type} (vals : List α)
    (er : Option ε) (n : Nat) (hn : 1 ≤ n) (sched : List Nat) :
    (mpxFinal (⟨vals, er⟩ : ErrSeq α ε) n sched).count
      = (mpxFinal (⟨vals, er⟩ : ErrSeq α ε) n sched).pos
    ∧ (mpxFinal (⟨vals, er⟩ : ErrSeq α ε) n sched).pos ≤ vals.length
    ∧ (∀ i, i < n →
        (mpxFinal (⟨vals, er⟩ : ErrSeq α ε) n sched).cursors.getD i 0 = vals.length →
        (mpxFinal (⟨vals, er⟩ : ErrSeq α ε) n sched).count = vals.length) := by
  have h : MpxInv vals er n (mpxFinal (⟨vals, er⟩ : ErrSeq α ε) n sched) :=
    mpx_inv_reached (⟨vals, er⟩ : ErrSeq α ε) n sched
  refine ⟨h.hcount, h.hpos, fun i hi hc => ?_⟩
  have hic : i < (mpxFinal (⟨vals, er⟩ : ErrSeq α ε) n sched).cursors.length := by
    rw [h.hcur]
    exact hi
  have h1 := mpx_cursor_le_pos h hic
  have h2 := h.hpos
  have h3 := h.hcount
  omega

/-- C2 witness: two outputs of a 2-value source pulled alternately to
exhaustion; the callback count equals the source position, the position
never exceeds the source length, and output 0, having consumed everything,
pins the count to 2 rather than 4. -/
theorem multiplex_callback_once_per_value_witness :
    (mpxFinal (⟨[5, 6], none⟩ : ErrSeq Nat Unit) 2 [0, 1, 0, 1, 0, 1]).count
      = (mpxFinal (⟨[5, 6], none⟩ : ErrSeq Nat Unit) 2 [0, 1, 0, 1, 0, 1]).pos
    ∧ (mpxFinal (⟨[5, 6], none⟩ : ErrSeq Nat Unit) 2 [0, 1, 0, 1, 0, 1]).pos
        ≤ [5, 6].length
    ∧ (∀ i, i < 2 →
        (mpxFinal (⟨[5, 6], none⟩ : ErrSeq Nat Unit) 2
          [0, 1, 0, 1, 0, 1]).cursors.getD i 0 = [5, 6].length →
        (mpxFinal (⟨[5, 6], none⟩ : ErrSeq Nat Unit) 2
          [0, 1, 0, 1, 0, 1]).count = [5, 6].length) :=
  multiplex_callback_once_per_value [5, 6] none 2 (by decide) [0, 1, 0, 1, 0, 1]

/-- C3: for a source that yields `vals` and then raises `e`, under every
interleaving each output has observed exactly the source prefix below its
cursor; the next pull on output `i` raises `e` precisely when `i` is not
yet terminal and its own cursor has reached the error position, regardless
of the other outputs; the error has been delivered to `i` at most once,
exactly once iff `i` is terminal; and a terminal output only signals
exhaustion afterwards. -/
theorem multiplex_error_delivery {α ε : Type} (vals : List α) (e : ε) (n : Nat)
    (hn : 1 ≤ n) (sched : List Nat) (i : Nat) (hi : i < n) :
    (mpxFinal (⟨vals, some e⟩ : ErrSeq α ε) n sched).obs.getD i []
      = List.take ((mpxFinal (⟨vals, some e⟩ : ErrSeq α ε) n sched).cursors.getD i 0) vals
    ∧ ((mpxPull (mpxFinal (⟨vals, some e⟩ : ErrSeq α ε) n sched) i).1 = PullResult.err e ↔
        (mpxFinal (⟨vals, some e⟩ : ErrSeq α ε) n sched).term.getD i false = false ∧
        (mpxFinal (⟨vals, some e⟩ : ErrSeq α ε) n sched).cursors.getD i 0 = vals.length)
    ∧ (mpxFinal (⟨vals, some e⟩ : ErrSeq α ε) n sched).errObs.getD i 0 ≤ 1
    ∧ ((mpxFinal (⟨vals, some e⟩ : ErrSeq α ε) n sched).errObs.getD i 0 = 1 ↔
        (mpxFinal (⟨vals, some e⟩ : ErrSeq α ε) n sched).term.getD i false = true)
    ∧ ((mpxFinal (⟨vals, some e⟩ : ErrSeq α ε) n sched).term.getD i false = true →
        (mpxPull (mpxFinal (⟨vals, some e⟩ : ErrSeq α ε) n sched) i).1
          = PullResult.done) := by
  have h : MpxInv vals (some e) n (mpxFinal (⟨vals, some e⟩ : ErrSeq α ε) n sched) :=
    mpx_inv_reached (⟨vals, some e⟩ : ErrSeq α ε) n sched
  have hic : i < (mpxFinal (⟨vals, some e⟩ : ErrSeq α ε) n sched).cursors.length := by
    rw [h.hcur]
    exact hi
  refine ⟨h.hobsEq i hi, ?_, ?_, ?_, ?_⟩
  · constructor
    · intro hp
      cases ht : (mpxFinal (⟨vals, some e⟩ : ErrSeq α ε) n sched).term.getD i false with
      | true =>
        rw [mpxPull_term _ i hic ht] at hp
        exact absurd hp (by simp)
      | false =>
        rcases Nat.lt_trichotomy
            ((mpxFinal (⟨vals, some e⟩ : ErrSeq α ε) n sched).cursors.getD i 0)
            ((mpxFinal (⟨vals, some e⟩ : ErrSeq α ε) n sched).pos) with hc | hc | hc
        · obtain ⟨hlt, hv⟩ := mpx_queue_lookup h hic hc
          rw [mpxPull_buf _ i _ hic ht hc hv] at hp
          exact absurd hp (by simp)
        · cases hrem : (mpxFinal (⟨vals, some e⟩ : ErrSeq α ε) n sched).remaining with
          | cons v rest =>
            rw [mpxPull_frontier _ i v rest hic ht hc hrem] at hp
            exact absurd hp (by simp)
          | nil =>
            have hdrop : List.drop (mpxFinal (⟨vals, some e⟩ : ErrSeq α ε) n sched).pos vals
                = [] := by rw [← h.hrem, hrem]
            have h1 := congrArg List.length hdrop
            simp only [List.length_drop, List.length_nil] at h1
            have h2 := h.hpos
            refine ⟨rfl, ?_⟩
            omega
        · exact absurd hc (by have := mpx_cursor_le_pos h hic; omega)
    · rintro ⟨ht, hc⟩
      have h1 := mpx_cursor_le_pos h hic
      have h2 := h.hpos
      have hce : (mpxFinal (⟨vals, some e⟩ : ErrSeq α ε) n sched).cursors.getD i 0
          = (mpxFinal (⟨vals, some e⟩ : ErrSeq α ε) n sched).pos := by omega
      have hposlen : (mpxFinal (⟨vals, some e⟩ : ErrSeq α ε) n sched).pos = vals.length := by
        omega
      have hrem : (mpxFinal (⟨vals, some e⟩ : ErrSeq α ε) n sched).remaining = [] := by
        rw [h.hrem, hposlen]
        exact List.drop_length vals
      rw [mpxPull_frontier_err _ i e hic ht hce hrem h.hsrc]
  · rw [h.herrObsEq i hi]
    split <;> omega
  · rw [h.herrObsEq i hi]
    simp
  · intro ht
    rw [mpxPull_term _ i hic ht]

/-- C3 witness: a source yielding 1, 2 and then raising, multiplexed into
two outputs; output 0 is drained to the error while output 1 lags at
position 1.  Output 0 has observed the full prefix, has received the error
exactly once, is terminal, and only signals exhaustion from now on; the
next pull on it cannot raise again. -/
theorem multiplex_error_delivery_witness :
    (mpxFinal (⟨[1, 2], some ()⟩ : ErrSeq Nat Unit) 2 [0, 0, 0, 1]).obs.getD 0 []
      = List.take ((mpxFinal (⟨[1, 2], some ()⟩ : ErrSeq Nat Unit) 2
          [0, 0, 0, 1]).cursors.getD 0 0) [1, 2]
    ∧ ((mpxPull (mpxFinal (⟨[1, 2], some ()⟩ : ErrSeq Nat Unit) 2 [0, 0, 0, 1]) 0).1
          = PullResult.err () ↔
        (mpxFinal (⟨[1, 2], some ()⟩ : ErrSeq Nat Unit) 2
          [0, 0, 0, 1]).term.getD 0 false = false ∧
        (mpxFinal (⟨[1, 2], some ()⟩ : ErrSeq Nat Unit) 2
          [0, 0, 0, 1]).cursors.getD 0 0 = [1, 2].length)
    ∧ (mpxFinal (⟨[1, 2], some ()⟩ : ErrSeq Nat Unit) 2 [0, 0, 0, 1]).errObs.getD 0 0 ≤ 1
    ∧ ((mpxFinal (⟨[1, 2], some ()⟩ : ErrSeq Nat Unit) 2
          [0, 0, 0, 1]).errObs.getD 0 0 = 1 ↔
        (mpxFinal (⟨[1, 2], some ()⟩ : ErrSeq Nat Unit) 2
          [0, 0, 0, 1]).term.getD 0 false = true)
    ∧ ((mpxFinal (⟨[1, 2], some ()⟩ : ErrSeq Nat Unit) 2
          [0, 0, 0, 1]).term.getD 0 false = true →
        (mpxPull (mpxFinal (⟨[1, 2], some ()⟩ : ErrSeq Nat Unit) 2 [0, 0, 0, 1]) 0).1
          = PullResult.done) :=
  multiplex_error_delivery [1, 2] () 2 (by decide) [0, 0, 0, 1] 0 (by decide)

/-- C4: in every state reachable by any interleaving of pulls, the buffer
length equals the source position minus the minimum cursor, and the buffer
is exactly the source segment between the minimum cursor and the position
(so a value is evicted precisely once every cursor has passed it); one
further pull never decreases any cursor; the source position changes only
when the pulled output sits at the frontier, ahead of every cursor; and
the defensive buffer-invariant violation is never reachable. -/
theorem multiplex_buffer_invariant {α ε : Type} (vals : List α) (er : Option ε)
    (n : Nat) (hn : 1 ≤ n) (sched : List Nat) :
    (mpxFinal (⟨vals, er⟩ : ErrSeq α ε) n sched).queue.length
      = (mpxFinal (⟨vals, er⟩ : ErrSeq α ε) n sched).pos
        - listMin (mpxFinal (⟨vals, er⟩ : ErrSeq α ε) n sched).cursors
    ∧ (mpxFinal (⟨vals, er⟩ : ErrSeq α ε) n sched).queue
      = List.drop (listMin (mpxFinal (⟨vals, er⟩ : ErrSeq α ε) n sched).cursors)
          (List.take (mpxFinal (⟨vals, er⟩ : ErrSeq α ε) n sched).pos vals)
    ∧ (∀ i j : Nat,
        (mpxFinal (⟨vals, er⟩ : ErrSeq α ε) n sched).cursors.getD j 0
          ≤ ((mpxPull (mpxFinal (⟨vals, er⟩ : ErrSeq α ε) n sched) i).2).cursors.getD j 0)
    ∧ (∀ i : Nat,
        ((mpxPull (mpxFinal (⟨vals, er⟩ : ErrSeq α ε) n sched) i).2).pos
            ≠ (mpxFinal (⟨vals, er⟩ : ErrSeq α ε) n sched).pos →
        (mpxFinal (⟨vals, er⟩ : ErrSeq α ε) n sched).cursors.getD i 0
            = (mpxFinal (⟨vals, er⟩ : ErrSeq α ε) n sched).pos ∧
        ∀ c ∈ (mpxFinal (⟨vals, er⟩ : ErrSeq α ε) n sched).cursors,
          c ≤ (mpxFinal (⟨vals, er⟩ : ErrSeq α ε) n sched).cursors.getD i 0)
    ∧ (∀ i : Nat, i < n →
        (mpxPull (mpxFinal (⟨vals, er⟩ : ErrSeq α ε) n sched) i).1 ≠ PullResult.bug) := by
  have h : MpxInv vals er n (mpxFinal (⟨vals, er⟩ : ErrSeq α ε) n sched) :=
    mpx_inv_reached (⟨vals, er⟩ : ErrSeq α ε) n sched
  refine ⟨mpx_queue_len h, h.hq, fun i j => mpx_cursors_mono _ i j, fun i hch => ?_,
    fun i hi => mpx_no_bug h hi⟩
  have h1 := mpx_pos_stable_unless_frontier _ i hch
  refine ⟨h1.1, fun c hc => ?_⟩
  rw [h1.1]
  exact h.hle c hc

/-- C4 witness: the buffer law, cursor monotonicity, frontier-only source
pulls and bug-freedom evaluated after a concrete interleaving in which
output 0 runs two values ahead of output 1. -/
theorem multiplex_buffer_invariant_witness :
    (mpxFinal (⟨[1, 2, 3], none⟩ : ErrSeq Nat Unit) 2 [0, 0, 1]).queue.length
      = (mpxFinal (⟨[1, 2, 3], none⟩ : ErrSeq Nat Unit) 2 [0, 0, 1]).pos
        - listMin (mpxFinal (⟨[1, 2, 3], none⟩ : ErrSeq Nat Unit) 2 [0, 0, 1]).cursors
    ∧ (mpxFinal (⟨[1, 2, 3], none⟩ : ErrSeq Nat Unit) 2 [0, 0, 1]).queue
      = List.drop (listMin (mpxFinal (⟨[1, 2, 3], none⟩ : ErrSeq Nat Unit) 2
            [0, 0, 1]).cursors)
          (List.take (mpxFinal (⟨[1, 2, 3], none⟩ : ErrSeq Nat Unit) 2 [0, 0, 1]).pos
            [1, 2, 3])
    ∧ (∀ i j : Nat,
        (mpxFinal (⟨[1, 2, 3], none⟩ : ErrSeq Nat Unit) 2 [0, 0, 1]).cursors.getD j 0
          ≤ ((mpxPull (mpxFinal (⟨[1, 2, 3], none⟩ : ErrSeq Nat Unit) 2
              [0, 0, 1]) i).2).cursors.getD j 0)
    ∧ (∀ i : Nat,
        ((mpxPull (mpxFinal (⟨[1, 2, 3], none⟩ : ErrSeq Nat Unit) 2 [0, 0, 1]) i).2).pos
            ≠ (mpxFinal (⟨[1, 2, 3], none⟩ : ErrSeq Nat Unit) 2 [0, 0, 1]).pos →
        (mpxFinal (⟨[1, 2, 3], none⟩ : ErrSeq Nat Unit) 2 [0, 0, 1]).cursors.getD i 0
            = (mpxFinal (⟨[1, 2, 3], none⟩ : ErrSeq Nat Unit) 2 [0, 0, 1]).pos ∧
        ∀ c ∈ (mpxFinal (⟨[1, 2, 3], none⟩ : ErrSeq Nat Unit) 2 [0, 0, 1]).cursors,
          c ≤ (mpxFinal (⟨[1, 2, 3], none⟩ : ErrSeq Nat Unit) 2
              [0, 0, 1]).cursors.getD i 0)
    ∧ (∀ i : Nat, i < 2 →
        (mpxPull (mpxFinal (⟨[1, 2, 3], none⟩ : ErrSeq Nat Unit) 2 [0, 0, 1]) i).1
          ≠ PullResult.bug) :=
  multiplex_buffer_invariant [1, 2, 3] none 2 (by decide) [0, 0, 1]

end Lazy
